import Mathlib

/-!
Verification development for the gaming-highlights pipeline.

The definitions below are a shallow embedding of the Python sources:
`agent/video_tools.py` (scene segmentation), `agent/nemotron_analyzer.py`
(response parsing of the scoring model), `agent/nemotron_client.py`
(the orchestration loop and the client-side JSON extraction) and
`agent/gaming_agent.py` (top-k selection and clip-result assembly).
Python floats are modelled as exact rationals `ℚ`; Python exceptions are
modelled as `Except`/`Option` results; the external model and the external
tools are modelled as oracles (explicit input functions).
-/

-- Batteries seals the rational-number arithmetic; reopening it lets
-- `decide`/`rfl` evaluate the embedded functions on concrete inputs.
unseal Rat.add Rat.mul Rat.inv Rat.sub

/-- A scene dictionary as built by `VideoTools.detect_scenes`
(`video_tools.py`): `{'index': …, 'start': …, 'end': …, 'duration': …,
'mid_point': …}`. -/
structure Scene where
  index : ℕ
  start : ℚ
  end_ : ℚ
  duration : ℚ
  mid_point : ℚ
deriving DecidableEq, Repr

/-- Insert `x` into a strictly sorted list, skipping duplicates.
`sortedSet` below uses it to model Python's `sorted(set(timestamps))`. -/
def insortND (x : ℚ) : List ℚ → List ℚ
  | [] => [x]
  | y :: ys => if x < y then x :: y :: ys else if x = y then y :: ys else y :: insortND x ys

/-- Python `sorted(set(timestamps))` from `detect_scenes` (video_tools.py line 135). -/
def sortedSet (ts : List ℚ) : List ℚ := ts.foldr insortND []

/-- The boundary list of `detect_scenes` (video_tools.py lines 135-139):
truncate the sorted timestamp set to `max_scenes`, force `0.0` in front when
the list is empty or does not start at `0`, and append `duration` when it is
not already present. -/
def boundaryList (ts : List ℚ) (d : ℚ) (max_scenes : ℕ) : List ℚ :=
  let t1 := (sortedSet ts).take max_scenes
  let t2 := if t1.head? = some 0 then t1 else 0 :: t1
  if d ∈ t2 then t2 else t2 ++ [d]

/-- Consecutive pairs `(timestamps[i], timestamps[i+1])`
(the loop of video_tools.py line 147). -/
def consecPairs : List ℚ → List (ℚ × ℚ)
  | [] => []
  | [_] => []
  | a :: b :: rest => (a, b) :: consecPairs (b :: rest)

/-- The duration filter of the primary path
(video_tools.py line 153: `min_dur <= scene_duration <= max_dur`). -/
def scenePass (min_dur max_dur : ℚ) (p : ℚ × ℚ) : Bool :=
  decide (min_dur ≤ p.2 - p.1) && decide (p.2 - p.1 ≤ max_dur)

/-- One iteration of the primary scene-building loop: scenes that pass the
filter are appended with `'index': len(scenes)` (video_tools.py lines 153-160). -/
def appendScene (min_dur max_dur : ℚ) (acc : List Scene) (p : ℚ × ℚ) : List Scene :=
  if scenePass min_dur max_dur p then
    acc ++ [⟨acc.length, p.1, p.2, p.2 - p.1, (p.1 + p.2) / 2⟩]
  else acc

/-- The keyframe (primary) path of `detect_scenes`
(video_tools.py lines 134-160). -/
def primaryScenes (ts : List ℚ) (d min_dur max_dur : ℚ) (max_scenes : ℕ) : List Scene :=
  (consecPairs (boundaryList ts d max_scenes)).foldl (appendScene min_dur max_dur) []

/-- Python `chunk_duration = min(15.0, duration / 5)` (video_tools.py line 164). -/
def chunkDur (d : ℚ) : ℚ := min 15 (d / 5)

/-- Python `num_chunks = max(3, int(duration / chunk_duration))` (video_tools.py
line 165); for the positive values arising here `int` is the floor. -/
def chunkCount (d : ℚ) : ℕ := max 3 (⌊d / chunkDur d⌋).toNat

/-- Python `start = i * chunk_duration` (video_tools.py line 168). -/
def chunkStart (c : ℚ) (i : ℕ) : ℚ := (i : ℚ) * c

/-- Python `end = min((i + 1) * chunk_duration, duration)` (video_tools.py line 169). -/
def chunkEnd (c d : ℚ) (i : ℕ) : ℚ := min (((i : ℚ) + 1) * c) d

/-- The scene dictionary appended for chunk `i` (video_tools.py lines
173-179), with `'index': i` taken from the loop counter. -/
def chunkScene (c d : ℚ) (i : ℕ) : Scene :=
  ⟨i, chunkStart c i, chunkEnd c d i, chunkEnd c d i - chunkStart c i,
    (chunkStart c i + chunkEnd c d i) / 2⟩

/-- The `scene_duration >= 1.0` filter of the fallback (video_tools.py
line 172). -/
def keepChunk (c d : ℚ) (i : ℕ) : Bool := decide (1 ≤ chunkEnd c d i - chunkStart c i)

/-- The equal-chunk fallback of `detect_scenes` (video_tools.py lines
162-179). -/
def fallbackScenes (d : ℚ) : List Scene :=
  (List.range (chunkCount d)).filterMap fun (i : ℕ) =>
    if keepChunk (chunkDur d) d i then some (chunkScene (chunkDur d) d i) else none

/-- Model of `VideoTools.detect_scenes` (video_tools.py lines 91-185), as a function of
the keyframe timestamps reported by ffprobe, the video duration, the configured
duration bounds and `max_scenes`: the primary keyframe path, falling back to
equal chunks when it produces nothing and the duration is positive. -/
def detect_scenes (ts : List ℚ) (d min_dur max_dur : ℚ) (max_scenes : ℕ) : List Scene :=
  let scs := primaryScenes ts d min_dur max_dur max_scenes
  if scs = [] ∧ 0 < d then fallbackScenes d else scs

/-- The record returned by `NemotronAnalyzer._parse_analysis_response`
(nemotron_analyzer.py lines 210-217); text fields are lists of characters,
mirroring Python strings. The `raw_response` key is the whole response and is
omitted. -/
structure ScoreRecord where
  score : ℕ
  reasoning : List Char
  is_highlight : Bool
  description : List Char
  timestamp : ℚ
deriving DecidableEq, Repr

/-- Python `str.split('\n')`: always at least one (possibly empty) piece. -/
def splitLines : List Char → List (List Char)
  | [] => [[]]
  | c :: cs =>
    match splitLines cs with
    | [] => [[]]
    | r :: rs => if c = '\n' then [] :: r :: rs else (c :: r) :: rs

/-- Python substring test `pat in l` (naive scan). -/
def beginsWith : List Char → List Char → Bool
  | [], _ => true
  | _ :: _, [] => false
  | p :: ps, c :: cs => p = c && beginsWith ps cs

/-- Python substring containment `pat in l`. -/
def containsSub (pat : List Char) : List Char → Bool
  | [] => pat.isEmpty
  | c :: cs => beginsWith pat (c :: cs) || containsSub pat cs

/-- A word character for the regex `\b(\d{1,3})\b` (ASCII `\w`). -/
def wordChar (ch : Char) : Bool := ch.isAlphanum || ch = '_'

/-- Maximal runs of word characters (fuelled; `tokenRuns` supplies enough
fuel). `re.findall` of `\b(\d{1,3})\b` matches exactly the runs that consist
of one to three digits. -/
def tokenRunsF : ℕ → List Char → List (List Char)
  | 0, _ => []
  | _ + 1, [] => []
  | fuel + 1, c :: cs =>
    if wordChar c then (c :: cs.takeWhile wordChar) :: tokenRunsF fuel (cs.dropWhile wordChar)
    else tokenRunsF fuel cs

def tokenRuns (l : List Char) : List (List Char) := tokenRunsF l.length l

/-- Numeric value of a digit run. -/
def natOfDigits (ds : List Char) : ℕ := ds.foldl (fun n ch => 10 * n + (ch.toNat - 48)) 0

/-- Python `re.findall(r'\b(\d{1,3})\b', line)` followed by `int(numbers[0])`
(nemotron_analyzer.py lines 196-199): the first maximal word-character run
made of one to three digits. -/
def firstSmallNumber (line : List Char) : Option ℕ :=
  ((tokenRuns line).find? fun t => t.all Char.isDigit && decide (t.length ≤ 3)).map natOfDigits

/-- The score-extraction loop of `_parse_analysis_response`
(nemotron_analyzer.py lines 192-202): scan the lowercased lines; on a line
mentioning `score` or `excitement` take its first 1-3 digit number and stop
only if it lies in `[0,100]`. -/
def scanScore : List (List Char) → Option ℕ
  | [] => none
  | line :: rest =>
    if containsSub ("score".data) line || containsSub ("excitement".data) line then
      match firstSmallNumber line with
      | some n => if n ≤ 100 then some n else scanScore rest
      | none => scanScore rest
    else scanScore rest

/-- Python `str.strip()` (whitespace, including `\x0b`/`\x0c`). -/
def pyWhitespace (ch : Char) : Bool := ch.isWhitespace || ch = '\x0b' || ch = '\x0c'

def pyStrip (l : List Char) : List Char :=
  ((l.dropWhile pyWhitespace).reverse.dropWhile pyWhitespace).reverse

/-- Model of `NemotronAnalyzer._parse_analysis_response` (nemotron_analyzer.py lines
179-217): default score 50, overridden by the first in-range number on a
`score`/`excitement` line of the lowercased response; the description is the
stripped first line when its length is strictly between 10 and 100 characters,
otherwise `"Gaming moment"`; `is_highlight` is `score >= 70`; `reasoning` and
`description` are truncated to 500 and 100 characters. -/
def parse_analysis_response (response : List Char) (timestamp : ℚ) : ScoreRecord :=
  let score := (scanScore (splitLines (response.map Char.toLower))).getD 50
  let first_line := pyStrip ((splitLines response).headD [])
  let description :=
    if 10 < first_line.length ∧ first_line.length < 100 then first_line
    else ("Gaming moment").data
  { score := score
    reasoning := response.take 500
    is_highlight := decide (70 ≤ score)
    description := description.take 100
    timestamp := timestamp }


/-- A JSON value of the shape the scoring/decision responses use: flat
objects of string keys with integer or string values. -/
inductive JVal where
  | jint (n : ℤ) : JVal
  | jstr (s : List Char) : JVal
deriving DecidableEq, Repr

/-- A parsed JSON object (association list in source order). -/
abbrev JObj := List (List Char × JVal)

def jsonWs (ch : Char) : Bool := ch = ' ' || ch = '\t' || ch = '\n' || ch = '\r'

def skipWs (l : List Char) : List Char := l.dropWhile jsonWs

/-- JSON string literal body up to the closing quote (escape sequences are
outside the modelled subset and fail the parse). -/
def takeJString : List Char → List Char → Option (List Char × List Char)
  | [], _ => none
  | '"' :: rest, acc => some (acc.reverse, rest)
  | '\\' :: _, _ => none
  | c :: rest, acc => takeJString rest (c :: acc)

def parseJString : List Char → Option (List Char × List Char)
  | '"' :: rest => takeJString rest []
  | _ => none

def parseDigitsRun (l : List Char) : Option (ℕ × List Char) :=
  let ds := l.takeWhile Char.isDigit
  if ds.isEmpty then none else some (natOfDigits ds, l.dropWhile Char.isDigit)

def parseJInt : List Char → Option (ℤ × List Char)
  | '-' :: rest => (parseDigitsRun rest).map fun x => (-(x.1 : ℤ), x.2)
  | l => (parseDigitsRun l).map fun x => ((x.1 : ℤ), x.2)

def parseJVal (l : List Char) : Option (JVal × List Char) :=
  match parseJString l with
  | some (s, rest) => some (.jstr s, rest)
  | none => (parseJInt l).map fun x => (.jint x.1, x.2)

/-- Members of a JSON object after the opening brace, up to and including the
closing brace (fuelled recursion; callers pass the input length). -/
def parseMembers : ℕ → List Char → Option (JObj × List Char)
  | 0, _ => none
  | fuel + 1, l =>
    match parseJString (skipWs l) with
    | none => none
    | some (key, r1) =>
      match skipWs r1 with
      | ':' :: r2 =>
        match parseJVal (skipWs r2) with
        | none => none
        | some (v, r3) =>
          match skipWs r3 with
          | ',' :: r4 => (parseMembers fuel r4).map fun x => ((key, v) :: x.1, x.2)
          | '\x7d' :: r4 => some ([(key, v)], r4)
          | _ => none
      | _ => none

/-- Model of Python `json.loads` on the flat-object grammar this program
exchanges (string keys, integer or string values, no nesting, no escapes).
Anything outside that subset — in particular the empty string and brace-less
free text, on which `json.loads` raises `ValueError` — is an error. -/
def jsonLoads (l : List Char) : Except Unit JObj :=
  match skipWs l with
  | '\x7b' :: rest =>
    match skipWs rest with
    | '\x7d' :: r2 => if skipWs r2 = [] then .ok [] else .error ()
    | _ =>
      match parseMembers (rest.length + 1) rest with
      | some (obj, r2) => if skipWs r2 = [] then .ok obj else .error ()
      | none => .error ()
  | _ => .error ()

/-- Python `str.find(pat)` (first index of a substring, `-1` if absent). -/
def pyFindAux (pat : List Char) : List Char → ℕ → Option ℕ
  | [], k => if pat.isEmpty then some k else none
  | c :: cs, k => if beginsWith pat (c :: cs) then some k else pyFindAux pat cs (k + 1)

def pyFind (l pat : List Char) : ℤ :=
  match pyFindAux pat l 0 with
  | some k => (k : ℤ)
  | none => -1

/-- Python `str.rfind(ch)` for a single character (last index, `-1` if absent). -/
def pyRFindChar (l : List Char) (ch : Char) : ℤ :=
  match pyFindAux [ch] l.reverse 0 with
  | some k => (l.length : ℤ) - 1 - (k : ℤ)
  | none => -1

/-- Python slice `l[a:b]` for `0 ≤ a` (the only use sites). -/
def pySliceClosed (l : List Char) (a b : ℤ) : List Char :=
  ((l.drop a.toNat).take (b - a).toNat)

/-- The reasoning-trace stripper of `NemotronAgent._extract_json`
(nemotron_client.py lines 265-275): past `</think>` when it closes, past
`<think>` when it does not. -/
def stripThink (text : List Char) : List Char :=
  let think_start := pyFind text (("<think>").data)
  if 0 ≤ think_start then
    let think_end := pyFind text (("</think>").data)
    if 0 ≤ think_end then text.drop (think_end.toNat + 8)
    else text.drop (think_start.toNat + 7)
  else text

/-- The brace-window scan shared by `NemotronAgent._extract_json`
(nemotron_client.py lines 277-286) and `analyze_scene_with_nemotron`
(lines 351-357): parse `text[text.find('{') : text.rfind('}')+1]` when that
window is non-empty, otherwise parse the whole text. Either `json.loads`
failure propagates (the Python exception). -/
def braceWindowLoads (text : List Char) : Except Unit JObj :=
  let start := pyFind text [ '\x7b' ]
  let stop := pyRFindChar text '\x7d' + 1
  if 0 ≤ start ∧ start < stop then jsonLoads (pySliceClosed text start stop)
  else jsonLoads text

/-- Model of `NemotronAgent._extract_json` (nemotron_client.py lines 263-286). -/
def extract_json (text : List Char) : Except Unit JObj :=
  braceWindowLoads (stripThink text)

/-- The response-content parsing tail of `analyze_scene_with_nemotron`
(nemotron_client.py lines 349-357): no reasoning-trace stripping, same brace
window, bare `json.loads` — malformed content raises and the `score` field is
taken as-is, without any range check. -/
def analyze_scene_parse (content : List Char) : Except Unit JObj :=
  braceWindowLoads content

/-- One analyzed scene as ranked in `GamingHighlightsAgent.process_video`
(gaming_agent.py lines 168-177): the scene's index and its analysis score. -/
structure ScoredScene where
  index : ℕ
  score : ℤ
deriving DecidableEq, Repr

/-- One insertion step of a stable descending sort: `x` goes after every
element whose score is at least `x.score`. -/
def insertDesc (x : ScoredScene) : List ScoredScene → List ScoredScene
  | [] => [x]
  | y :: ys => if y.score < x.score then x :: y :: ys else y :: insertDesc x ys

/-- Python `sorted(analyzed_scenes, key=lambda x: x['analysis']['score'],
reverse=True)` (gaming_agent.py lines 171-175): a stable sort by descending
score, so equal scores keep their original (ascending-index) order. -/
def sortDesc (scored : List ScoredScene) : List ScoredScene :=
  scored.foldl (fun acc x => insertDesc x acc) []

/-- The stop index of the Python slice `l[:k]` for an `int` `k`: clamped at
the length for large `k`, counted from the end for negative `k`. -/
def pySliceStop (n : ℕ) (k : ℤ) : ℕ :=
  if 0 ≤ k then min k.toNat n else ((n : ℤ) + k).toNat

/-- Python `l[:k]`. -/
def pyTake (l : List ScoredScene) (k : ℤ) : List ScoredScene :=
  l.take (pySliceStop l.length k)

/-- Python `ranked_scenes = sorted(..., reverse=True)` followed by
`top_scenes = ranked_scenes[:count]` (gaming_agent.py lines 171-177). -/
def selectTop (scored : List ScoredScene) (k : ℤ) : List ScoredScene :=
  pyTake (sortDesc scored) k

/-- The ranking order the selection satisfies: strictly larger score first,
ties by ascending original scene index. -/
def rankOrder (a b : ScoredScene) : Prop :=
  b.score < a.score ∨ (a.score = b.score ∧ a.index < b.index)

/-- One persisted clip of the run result (gaming_agent.py lines 195-205):
its `rank` field and the scene it came from. -/
structure ClipRecord where
  rank : ℕ
  sceneIdx : ℕ
deriving DecidableEq, Repr

/-- The clip-extraction loop `for rank, scene in enumerate(top_scenes, 1)`
(gaming_agent.py lines 183-210): rank counts every selected scene, but only
scenes whose extraction succeeds (`extractOk rank`) are appended to
`results`. -/
def buildResults (extractOk : ℕ → Bool) : ℕ → List ℕ → List ClipRecord
  | _, [] => []
  | rank, s :: ss =>
    if extractOk rank then ⟨rank, s⟩ :: buildResults extractOk (rank + 1) ss
    else buildResults extractOk (rank + 1) ss

/-- The `clips` list of the persisted run metadata (gaming_agent.py lines
182-226), over the selected scene indices and an oracle saying which
extractions succeed. -/
def runClips (topScenes : List ℕ) (extractOk : ℕ → Bool) : List ClipRecord :=
  buildResults extractOk 1 topScenes

/-- What `NemotronAgent._decide_action` hands back to the loop, as seen from
`run`: either a decision with a `tool` field, or something falsy/without
`tool`. -/
inductive AgentAction where
  | invalid : AgentAction
  | act (tool : List Char) (params : List Char) (done : Bool) : AgentAction
deriving DecidableEq, Repr

/-- One raw model response per iteration: unparsable text, or a parsed
decision whose `tool` key may be missing (`done` defaults to `False` via
`action.get('done', False)`). -/
inductive ModelResp where
  | unparsable : ModelResp
  | parsed (tool : Option (List Char)) (params : List Char) (done : Bool) : ModelResp
deriving DecidableEq, Repr

/-- Model of `NemotronAgent._decide_action` (nemotron_client.py lines 87-148): a
response that fails JSON extraction is replaced by the fallback action
`{"tool": "done", "params": {}, ..., "done": True}`; a parsed decision is
returned as-is, and the loop's `'tool' not in action` guard makes a
tool-less decision invalid. -/
def decideAction : ModelResp → AgentAction
  | .unparsable => .act (("done").data) [] true
  | .parsed none _ _ => .invalid
  | .parsed (some t) p d => .act t p d

/-- One entry of `state['history']` (nemotron_client.py lines 66-82):
the 1-based iteration, the acted tool and params, the success flag, and the
serialized result (on success) or error text (on failure). -/
structure ActionRecord where
  iteration : ℕ
  tool : List Char
  params : List Char
  success : Bool
  info : List Char
deriving DecidableEq, Repr

/-- The environment of one orchestration run: the model's response at each
iteration index and the outcome of executing that iteration's tool call
(`Except.error` models a raised exception, including unknown tool names). -/
structure AgentEnv where
  resp : ℕ → ModelResp
  exec : ℕ → Except (List Char) (List Char)

/-- How `NemotronAgent.run` exits (nemotron_client.py lines 42-85): the
`done` branch, the invalid-action branch, or falling off the iteration
budget. -/
inductive RunOutcome where
  | doneOut : RunOutcome
  | invalidOut : RunOutcome
  | budgetOut : RunOutcome
deriving DecidableEq, Repr

/-- The history entry appended for iteration `i` when tool `t` with params
`p` is executed (nemotron_client.py lines 62-82). -/
def execRecord (env : AgentEnv) (i : ℕ) (t p : List Char) : ActionRecord :=
  match env.exec i with
  | .ok r => ⟨i + 1, t, p, true, r⟩
  | .error e => ⟨i + 1, t, p, false, e⟩

/-- The record appended at iteration `i` (total version of `execRecord`
over the decision actually taken; only meaningful on executing iterations). -/
def stepRec (env : AgentEnv) (i : ℕ) : ActionRecord :=
  match decideAction (env.resp i) with
  | .act t p _ => execRecord env i t p
  | .invalid => execRecord env i [] []

/-- The `for i in range(max_iterations)` loop of `NemotronAgent.run`
(nemotron_client.py lines 42-85), by remaining fuel and current iteration
index: an invalid action returns the history; a `done` decision returns the
history; otherwise the tool runs, its success or failure is appended, and
the loop continues. -/
def agentLoop (env : AgentEnv) : ℕ → ℕ → RunOutcome × List ActionRecord
  | 0, _ => (.budgetOut, [])
  | fuel + 1, i =>
    match decideAction (env.resp i) with
    | .invalid => (.invalidOut, [])
    | .act _ _ true => (.doneOut, [])
    | .act t p false =>
      let r := execRecord env i t p
      let rest := agentLoop env fuel (i + 1)
      (rest.1, r :: rest.2)

/-- Model of `NemotronAgent.run` (nemotron_client.py lines 25-85); the default
`max_iterations` is 20. Returns how the loop exited and the final
`state['history']`. -/
def runAgent (env : AgentEnv) (max_iterations : ℕ) : RunOutcome × List ActionRecord :=
  agentLoop env max_iterations 0

/-- Explicit-index form of the primary scene-building fold: the scenes of the
kept pairs, indexed consecutively from `k`. Used to reason about
`primaryScenes`. -/
def scenesFrom (min_dur max_dur : ℚ) : ℕ → List (ℚ × ℚ) → List Scene
  | _, [] => []
  | k, p :: ps =>
    if scenePass min_dur max_dur p then
      ⟨k, p.1, p.2, p.2 - p.1, (p.1 + p.2) / 2⟩ :: scenesFrom min_dur max_dur (k + 1) ps
    else scenesFrom min_dur max_dur k ps

/-- Environment whose model responses are never parsable JSON. -/
def envUnparsable : AgentEnv := ⟨fun _ => .unparsable, fun _ => .ok []⟩

/-- Environment whose first decision is well-formed and whose second parses
but omits the `tool` field. -/
def envMissingTool : AgentEnv :=
  ⟨fun j => if j = 0 then .parsed (some (("detect_scenes").data)) [] false
    else .parsed none [] false,
   fun _ => .ok []⟩

/-- Environment whose first tool call raises and whose later calls succeed. -/
def envToolFailure : AgentEnv :=
  ⟨fun _ => .parsed (some (("analyze_scene").data)) [] false,
   fun j => if j = 0 then .error (("boom").data) else .ok (("ok").data)⟩

/-- Environment whose second decision carries `done = true`. -/
def envDoneSecond : AgentEnv :=
  ⟨fun j => if j = 0 then .parsed (some (("detect_scenes").data)) [] false
    else .parsed (some (("extract_clip").data)) [] true,
   fun _ => .ok []⟩

/-! ## Supporting lemmas and claim theorems -/

theorem scanScore_le_100 : ∀ (ls : List (List Char)) (n : ℕ), scanScore ls = some n → n ≤ 100 := by
  intro ls
  induction ls with
  | nil => intro n h; simp [scanScore] at h
  | cons line rest ih =>
    intro n h
    unfold scanScore at h
    by_cases hsc : (containsSub ("score".data) line || containsSub ("excitement".data) line) = true
    · rw [if_pos hsc] at h
      cases hnum : firstSmallNumber line with
      | none => rw [hnum] at h; exact ih n h
      | some m =>
        rw [hnum] at h
        change (if m ≤ 100 then some m else scanScore rest) = some n at h
        by_cases hm : m ≤ 100
        · rw [if_pos hm] at h; cases h; exact hm
        · rw [if_neg hm] at h; exact ih n h
    · rw [if_neg hsc] at h; exact ih n h

/-- C4 (amended): the analyzer's response parsing
(`_parse_analysis_response`) is total — it is a function, never an
exception — and for every response text and timestamp the returned score
lies in `[0, 100]`, the value being the scanned in-range score when one
exists and the default `50` otherwise.  The original claim is refuted by
`analyze_scene_parse_raises_on_empty`: the Scoring Gateway's other parsing
site, `analyze_scene_with_nemotron` (nemotron_client.py lines 345-357),
raises on unparsable content — including the empty string — and performs no
range check at all. -/
theorem parse_analysis_response_score_bounds (response : List Char) (timestamp : ℚ) :
    (parse_analysis_response response timestamp).score ≤ 100 ∧
    (parse_analysis_response response timestamp).score =
      (scanScore (splitLines (response.map Char.toLower))).getD 50 := by
  constructor
  · show (scanScore (splitLines (response.map Char.toLower))).getD 50 ≤ 100
    cases h : scanScore (splitLines (response.map Char.toLower)) with
    | none => simp
    | some n => simpa using scanScore_le_100 _ n h
  · rfl

/-- C4 counterexample: the scene-scoring response parsing in
`analyze_scene_with_nemotron` fails (Python: raises `ValueError`) on the
empty response text, contradicting "does not raise an exception ... including
the empty string". -/
theorem analyze_scene_parse_raises_on_empty : analyze_scene_parse [] = Except.error () := rfl

/-- The client-side extractor passes the out-of-range score `105` through
unclamped: supporting evidence that neither parsing site realizes the
claimed clamping on this input. -/
theorem extract_json_keeps_out_of_range_score :
    extract_json (("<think>garbage</think>\x7b\"score\":105,\"description\":\"Epic\"\x7d").data) =
      Except.ok [(("score").data, .jint 105), (("description").data, .jstr (("Epic").data))] := rfl

/-- C5 (amended): on the response text
`<think>garbage</think>{"score":105,"description":"Epic"}` the analyzer's
parser yields `score = 50` (the out-of-range `105` is rejected and the
default used) and `is_highlight = false`, but the `description` is the
entire 56-character response line — the first-line fallback, whose length
lies in `(10,100)` — not the JSON field `"Epic"`; `reasoning` is likewise
the whole text. -/
theorem parse_think_105_record :
    parse_analysis_response
        (("<think>garbage</think>\x7b\"score\":105,\"description\":\"Epic\"\x7d").data) 0 =
      { score := 50
        reasoning := ("<think>garbage</think>\x7b\"score\":105,\"description\":\"Epic\"\x7d").data
        is_highlight := false
        description := ("<think>garbage</think>\x7b\"score\":105,\"description\":\"Epic\"\x7d").data
        timestamp := 0 } := by decide

/-- C5 counterexample: the parsed description is not `"Epic"`, refuting the
claim's `description = "Epic"` conjunct. -/
theorem parse_think_105_description_not_epic :
    (parse_analysis_response
        (("<think>garbage</think>\x7b\"score\":105,\"description\":\"Epic\"\x7d").data) 0).description ≠
      ("Epic").data := by decide

theorem buildResults_mem_bounds (extractOk : ℕ → Bool) :
    ∀ (l : List ℕ) (r : ℕ) (c : ClipRecord), c ∈ buildResults extractOk r l →
      r ≤ c.rank ∧ c.rank < r + l.length := by
  intro l
  induction l with
  | nil => intro r c h; simp [buildResults] at h
  | cons s ss ih =>
    intro r c h
    unfold buildResults at h
    by_cases hok : extractOk r = true
    · rw [if_pos hok] at h
      rcases List.mem_cons.mp h with h | h
      · subst h
        refine ⟨le_refl r, ?_⟩
        simp only [List.length_cons]
        omega
      · have := ih (r + 1) c h
        simp only [List.length_cons]
        omega
    · rw [if_neg hok] at h
      have := ih (r + 1) c h
      simp only [List.length_cons]
      omega

theorem buildResults_ranks_increasing (extractOk : ℕ → Bool) :
    ∀ (l : List ℕ) (r : ℕ),
      ((buildResults extractOk r l).map ClipRecord.rank).Pairwise (· < ·) := by
  intro l
  induction l with
  | nil => intro r; simp [buildResults]
  | cons s ss ih =>
    intro r
    unfold buildResults
    by_cases hok : extractOk r = true
    · rw [if_pos hok]
      simp only [List.map_cons, List.pairwise_cons]
      refine ⟨?_, ih (r + 1)⟩
      intro a ha
      rcases List.mem_map.mp ha with ⟨c, hc, hrk⟩
      have := buildResults_mem_bounds extractOk ss (r + 1) c hc
      omega
    · rw [if_neg hok]; exact ih (r + 1)

theorem buildResults_all_ok (extractOk : ℕ → Bool) :
    ∀ (l : List ℕ) (r : ℕ), (∀ j, r ≤ j → j < r + l.length → extractOk j = true) →
      (buildResults extractOk r l).map ClipRecord.rank = List.range' r l.length := by
  intro l
  induction l with
  | nil => intro r _; simp [buildResults]
  | cons s ss ih =>
    intro r hall
    unfold buildResults
    rw [if_pos (hall r (le_refl r) (by simp))]
    simp only [List.map_cons, List.range'_succ]
    refine congrArg (r :: ·) (ih (r + 1) ?_)
    intro j h1 h2
    exact hall j (by omega) (by simp; omega)

/-- C9 (amended): in every run result the persisted clip ranks are strictly
increasing and lie in `[1, k]` for `k` selected scenes, and they are the
dense sequence `1, …, k` exactly when every extraction succeeds; a failed
extraction leaves a gap at its rank while the run continues (the original
dense-ranks claim is refuted by `runClips_ranks_not_dense_on_failure`). -/
theorem runClips_rank_properties (topScenes : List ℕ) (extractOk : ℕ → Bool) :
    ((runClips topScenes extractOk).map ClipRecord.rank).Pairwise (· < ·) ∧
    (∀ c ∈ runClips topScenes extractOk, 1 ≤ c.rank ∧ c.rank ≤ topScenes.length) ∧
    ((∀ j, 1 ≤ j → j ≤ topScenes.length → extractOk j = true) →
      (runClips topScenes extractOk).map ClipRecord.rank = List.range' 1 topScenes.length) := by
  refine ⟨buildResults_ranks_increasing extractOk topScenes 1, ?_, ?_⟩
  · intro c hc
    have := buildResults_mem_bounds extractOk topScenes 1 c hc
    omega
  · intro hall
    exact buildResults_all_ok extractOk topScenes 1 fun j h1 h2 => hall j h1 (by omega)

/-- C9 witness: with two selected scenes and every extraction succeeding,
the theorem instantiates and the ranks are the dense `[1, 2]`. -/
theorem runClips_rank_properties_witness :
    ((runClips [5, 6] (fun _ => true)).map ClipRecord.rank).Pairwise (· < ·) ∧
    (∀ c ∈ runClips [5, 6] (fun _ => true), 1 ≤ c.rank ∧ c.rank ≤ ([5, 6] : List ℕ).length) ∧
    ((∀ j, 1 ≤ j → j ≤ ([5, 6] : List ℕ).length → (fun (_ : ℕ) => true) j = true) →
      (runClips [5, 6] (fun _ => true)).map ClipRecord.rank = List.range' 1 ([5, 6] : List ℕ).length) :=
  runClips_rank_properties [5, 6] (fun _ => true)

/-- C9 counterexample: three selected scenes whose second extraction fails
persist ranks `[1, 3]` — not a dense 1-based sequence — refuting "the ranks
… form a dense 1-based sequence (1, 2, …, n for n clips in the result),
including when the clip extraction of some selected scene fails". -/
theorem runClips_ranks_not_dense_on_failure :
    (runClips [7, 8, 9] (fun j => decide (j ≠ 2))).map ClipRecord.rank ≠
      List.range' 1 ((runClips [7, 8, 9] (fun j => decide (j ≠ 2))).length) := by decide

theorem mem_insertDesc (x a : ScoredScene) :
    ∀ l : List ScoredScene, a ∈ insertDesc x l ↔ a = x ∨ a ∈ l := by
  intro l
  induction l with
  | nil => simp [insertDesc]
  | cons y ys ih =>
    unfold insertDesc
    by_cases hlt : y.score < x.score
    · rw [if_pos hlt]; simp
    · rw [if_neg hlt]; simp [ih]; tauto

theorem length_insertDesc (x : ScoredScene) :
    ∀ l : List ScoredScene, (insertDesc x l).length = l.length + 1 := by
  intro l
  induction l with
  | nil => rfl
  | cons y ys ih =>
    unfold insertDesc
    by_cases hlt : y.score < x.score
    · rw [if_pos hlt]; rfl
    · rw [if_neg hlt]; simp [ih]

theorem rankOrder_score_le {a b : ScoredScene} (h : rankOrder a b) : b.score ≤ a.score := by
  rcases h with h | ⟨h, _⟩ <;> omega

theorem pairwise_insertDesc (x : ScoredScene) :
    ∀ l : List ScoredScene, l.Pairwise rankOrder → (∀ y ∈ l, y.index < x.index) →
      (insertDesc x l).Pairwise rankOrder := by
  intro l
  induction l with
  | nil => intro _ _; simp [insertDesc, rankOrder]
  | cons y ys ih =>
    intro hp hidx
    rcases List.pairwise_cons.mp hp with ⟨hy, hys⟩
    unfold insertDesc
    by_cases hlt : y.score < x.score
    · rw [if_pos hlt]
      refine List.pairwise_cons.mpr ⟨?_, hp⟩
      intro z hz
      rcases List.mem_cons.mp hz with hz | hz
      · subst hz; exact Or.inl hlt
      · exact Or.inl (lt_of_le_of_lt (rankOrder_score_le (hy z hz)) hlt)
    · rw [if_neg hlt]
      refine List.pairwise_cons.mpr ⟨?_, ih hys fun z hz => hidx z (List.mem_cons_of_mem y hz)⟩
      intro z hz
      rcases (mem_insertDesc x z ys).mp hz with hz | hz
      · subst hz
        rcases lt_or_eq_of_le (not_lt.mp hlt) with h | h
        · exact Or.inl h
        · exact Or.inr ⟨h.symm, hidx y (List.mem_cons_self y ys)⟩
      · exact hy z hz

theorem sortAux_pairwise :
    ∀ (rest acc : List ScoredScene), acc.Pairwise rankOrder →
      (∀ y ∈ acc, ∀ x ∈ rest, y.index < x.index) →
      rest.Pairwise (fun a b => a.index < b.index) →
      (rest.foldl (fun a x => insertDesc x a) acc).Pairwise rankOrder := by
  intro rest
  induction rest with
  | nil => intro acc h _ _; simpa using h
  | cons x rest ih =>
    intro acc hacc hcross hrest
    rcases List.pairwise_cons.mp hrest with ⟨hx, hrest'⟩
    simp only [List.foldl_cons]
    refine ih (insertDesc x acc) ?_ ?_ hrest'
    · exact pairwise_insertDesc x acc hacc
        fun y hy => hcross y hy x (List.mem_cons_self x rest)
    · intro y hy z hz
      rcases (mem_insertDesc x y acc).mp hy with hy | hy
      · subst hy; exact hx z hz
      · exact hcross y hy z (List.mem_cons_of_mem x hz)

theorem sortAux_length :
    ∀ (rest acc : List ScoredScene),
      (rest.foldl (fun a x => insertDesc x a) acc).length = acc.length + rest.length := by
  intro rest
  induction rest with
  | nil => intro acc; simp
  | cons x rest ih =>
    intro acc
    simp only [List.foldl_cons, ih (insertDesc x acc), length_insertDesc, List.length_cons]
    omega

theorem sortAux_perm :
    ∀ (rest acc : List ScoredScene),
      List.Perm (rest.foldl (fun a x => insertDesc x a) acc) (acc ++ rest) := by
  intro rest
  induction rest with
  | nil => intro acc; simp
  | cons x rest ih =>
    intro acc
    simp only [List.foldl_cons]
    refine (ih (insertDesc x acc)).trans ?_
    have h1 : List.Perm (insertDesc x acc) (x :: acc) := by
      have : ∀ l : List ScoredScene, List.Perm (insertDesc x l) (x :: l) := by
        intro l
        induction l with
        | nil => simp [insertDesc]
        | cons y ys ihy =>
          unfold insertDesc
          by_cases hlt : y.score < x.score
          · rw [if_pos hlt]
          · rw [if_neg hlt]
            exact (List.Perm.cons y ihy).trans (List.Perm.swap x y ys)
      exact this acc
    exact (h1.append_right rest).trans List.perm_middle.symm

theorem sortDesc_length (scored : List ScoredScene) :
    (sortDesc scored).length = scored.length := by
  have := sortAux_length scored []
  simpa [sortDesc] using this

/-- C3 (amended): for every scored-scene list with ascending scene indices,
`selectTop` — the stable descending sort of `process_video` followed by the
Python slice `[:count]` — is ordered by descending score with ties by
ascending original index; for `k ≥ 0` its length is `min(k, count)` (so
`k = 0` gives the empty selection and `k ≥ count` returns the whole sorted
permutation of the input); but for `k < 0` Python slice semantics return the
first `count + k` entries (clamped at zero) rather than the empty sequence
claimed for all `k ≤ 0` — that conjunct of the original claim is refuted by
`selectTop_negative_k_not_empty`. -/
theorem selectTop_spec (scored : List ScoredScene) (k : ℤ)
    (hidx : scored.Pairwise fun a b => a.index < b.index) :
    (selectTop scored k).Pairwise rankOrder ∧
    (0 ≤ k → (selectTop scored k).length = min k.toNat scored.length) ∧
    selectTop scored 0 = [] ∧
    ((scored.length : ℤ) ≤ k → selectTop scored k = sortDesc scored) ∧
    List.Perm (sortDesc scored) scored ∧
    (k < 0 → (selectTop scored k).length = ((scored.length : ℤ) + k).toNat) := by
  have hsorted : (sortDesc scored).Pairwise rankOrder := by
    have := sortAux_pairwise scored [] (by simp) (by simp) hidx
    simpa [sortDesc] using this
  have hlen := sortDesc_length scored
  refine ⟨?_, ?_, ?_, ?_, ?_, ?_⟩
  · exact List.Pairwise.sublist (List.take_sublist _ _) hsorted
  · intro hk
    show ((sortDesc scored).take (pySliceStop (sortDesc scored).length k)).length = _
    rw [List.length_take, hlen]
    unfold pySliceStop
    rw [if_pos hk]
    omega
  · show (sortDesc scored).take (pySliceStop (sortDesc scored).length 0) = []
    unfold pySliceStop
    norm_num
  · intro hk
    show (sortDesc scored).take (pySliceStop (sortDesc scored).length k) = sortDesc scored
    unfold pySliceStop
    rw [hlen, if_pos (le_trans (by positivity) hk)]
    have : min k.toNat scored.length = scored.length := by omega
    rw [this, ← hlen, List.take_length]
  · have := sortAux_perm scored []
    simpa [sortDesc] using this
  · intro hk
    show ((sortDesc scored).take (pySliceStop (sortDesc scored).length k)).length = _
    rw [List.length_take, hlen]
    unfold pySliceStop
    rw [if_neg (by omega)]
    omega

/-- C3 witness: three scenes with a tied top score and `k = 2`; the theorem
instantiates, the selection being `[⟨1, 90⟩, ⟨2, 90⟩]` (stable tie). -/
theorem selectTop_spec_witness :
    (([⟨0, 40⟩, ⟨1, 90⟩, ⟨2, 90⟩] : List ScoredScene).Pairwise fun a b => a.index < b.index) ∧
    ((selectTop [⟨0, 40⟩, ⟨1, 90⟩, ⟨2, 90⟩] 2).Pairwise rankOrder ∧
     (0 ≤ (2 : ℤ) → (selectTop [⟨0, 40⟩, ⟨1, 90⟩, ⟨2, 90⟩] 2).length =
        min (2 : ℤ).toNat ([⟨0, 40⟩, ⟨1, 90⟩, ⟨2, 90⟩] : List ScoredScene).length) ∧
     selectTop [⟨0, 40⟩, ⟨1, 90⟩, ⟨2, 90⟩] 0 = [] ∧
     ((([⟨0, 40⟩, ⟨1, 90⟩, ⟨2, 90⟩] : List ScoredScene).length : ℤ) ≤ 2 →
        selectTop [⟨0, 40⟩, ⟨1, 90⟩, ⟨2, 90⟩] 2 = sortDesc [⟨0, 40⟩, ⟨1, 90⟩, ⟨2, 90⟩]) ∧
     List.Perm (sortDesc [⟨0, 40⟩, ⟨1, 90⟩, ⟨2, 90⟩]) [⟨0, 40⟩, ⟨1, 90⟩, ⟨2, 90⟩] ∧
     ((2 : ℤ) < 0 → (selectTop [⟨0, 40⟩, ⟨1, 90⟩, ⟨2, 90⟩] 2).length =
        ((([⟨0, 40⟩, ⟨1, 90⟩, ⟨2, 90⟩] : List ScoredScene).length : ℤ) + 2).toNat)) :=
  ⟨by decide, selectTop_spec [⟨0, 40⟩, ⟨1, 90⟩, ⟨2, 90⟩] 2 (by decide)⟩

/-- C3 counterexample: `count = -1` with two scored scenes returns one scene
(Python `l[:-1]`), refuting "for every k ≤ 0 (including negative k) it
returns the empty sequence". -/
theorem selectTop_negative_k_not_empty :
    selectTop [⟨0, 90⟩, ⟨1, 40⟩] (-1) ≠ [] := by decide

theorem agentLoop_length_le (env : AgentEnv) :
    ∀ (fuel i : ℕ), (agentLoop env fuel i).2.length ≤ fuel := by
  intro fuel
  induction fuel with
  | zero => intro i; simp [agentLoop]
  | succ f ih =>
    intro i
    unfold agentLoop
    cases decideAction (env.resp i) with
    | invalid => simp
    | act t p d =>
      cases d with
      | true => simp
      | false => simpa using Nat.succ_le_succ (ih (i + 1))

theorem agentLoop_step_append (env : AgentEnv) :
    ∀ (fuel i : ℕ), ∃ t, (agentLoop env (fuel + 1) i).2 = (agentLoop env fuel i).2 ++ t := by
  intro fuel
  induction fuel with
  | zero => intro i; exact ⟨(agentLoop env 1 i).2, by simp [agentLoop]⟩
  | succ f ih =>
    intro i
    show ∃ t, (agentLoop env (f + 1 + 1) i).2 = _
    unfold agentLoop
    cases decideAction (env.resp i) with
    | invalid => exact ⟨[], by simp⟩
    | act tl p d =>
      cases d with
      | true => exact ⟨[], by simp⟩
      | false =>
        rcases ih (i + 1) with ⟨t, ht⟩
        exact ⟨t, by simp [ht]⟩

/-- C6: for every environment (every sequence of model decisions and tool
outcomes) the decide-execute loop of `NemotronAgent.run` terminates within
its iteration budget — the history it returns has at most `max_iterations`
entries (`runAgent` is a total function, so termination itself is
definitional) — and the history is append-only across iterations: the
history visible after `k + 1` loop iterations extends the history visible
after `k` (entries are never removed). -/
theorem runAgent_bounded_and_monotone (env : AgentEnv) (max_iterations : ℕ) :
    (runAgent env max_iterations).2.length ≤ max_iterations ∧
    ∀ k : ℕ, ∃ t, (runAgent env (k + 1)).2 = (runAgent env k).2 ++ t := by
  exact ⟨agentLoop_length_le env max_iterations 0, fun k => agentLoop_step_append env k 0⟩

theorem agentLoop_unroll (env : AgentEnv) :
    ∀ (i s fuel : ℕ),
      (∀ j, j < i → ∃ t p, decideAction (env.resp (s + j)) = .act t p false) →
      i ≤ fuel →
      agentLoop env fuel s =
        ((agentLoop env (fuel - i) (s + i)).1,
         ((List.range i).map fun j => stepRec env (s + j)) ++ (agentLoop env (fuel - i) (s + i)).2) := by
  intro i
  induction i with
  | zero => intro s fuel _ _; simp
  | succ n ih =>
    intro s fuel hc hle
    obtain ⟨fuel', rfl⟩ : ∃ f, fuel = f + 1 := ⟨fuel - 1, by omega⟩
    obtain ⟨t, p, ht⟩ := hc 0 (Nat.succ_pos n)
    rw [Nat.add_zero] at ht
    have hstep : agentLoop env (fuel' + 1) s =
        ((agentLoop env fuel' (s + 1)).1,
         execRecord env s t p :: (agentLoop env fuel' (s + 1)).2) := by
      have h0 : agentLoop env (fuel' + 1) s =
          (match decideAction (env.resp s) with
            | AgentAction.invalid => (RunOutcome.invalidOut, [])
            | AgentAction.act _ _ true => (RunOutcome.doneOut, [])
            | AgentAction.act t' p' false =>
              ((agentLoop env fuel' (s + 1)).1,
               execRecord env s t' p' :: (agentLoop env fuel' (s + 1)).2)) := rfl
      rw [ht] at h0
      exact h0
    have hrec : execRecord env s t p = stepRec env s := by
      unfold stepRec
      rw [ht]
    have hc' : ∀ j, j < n → ∃ t' p', decideAction (env.resp (s + 1 + j)) = .act t' p' false := by
      intro j hj
      have := hc (j + 1) (by omega)
      rwa [show s + (j + 1) = s + 1 + j by omega] at this
    have hih := ih (s + 1) fuel' hc' (by omega)
    have h3 : (List.range (n + 1)).map (fun j => stepRec env (s + j)) =
        stepRec env s :: (List.range n).map fun j => stepRec env (s + 1 + j) := by
      rw [List.range_succ_eq_map]
      simp only [List.map_cons, Nat.add_zero, List.map_map]
      refine congrArg (stepRec env s :: ·) (List.map_congr_left ?_)
      intro j _
      simp only [Function.comp]
      congr 1
      omega
    rw [hstep, hih, hrec, h3]
    have h1 : fuel' + 1 - (n + 1) = fuel' - n := by omega
    have h2 : s + (n + 1) = s + 1 + n := by omega
    rw [h1, h2]
    simp

/-- C7 (amended): a model response that parses but omits the `tool` field is
terminal: the loop returns the partial history accumulated so far, with no
tool invoked for it and no record appended, through the invalid-action
branch (the `Exhausted`-style exit). A model response that cannot be parsed
at all, however, is replaced by `_decide_action`'s fallback
`{"tool": "done", "done": True}` and therefore exits through the Done
branch — the original claim's "does not reach the Done (success) outcome
from an unparsable decision" is refuted by `runAgent_unparsable_reaches_done`. -/
theorem runAgent_missing_tool_terminal (env : AgentEnv) (m i : ℕ)
    (hc : ∀ j, j < i → ∃ t p, decideAction (env.resp j) = .act t p false)
    (him : i < m)
    (hinv : decideAction (env.resp i) = .invalid) :
    runAgent env m = (.invalidOut, (List.range i).map fun j => stepRec env j) := by
  have hc0 : ∀ j, j < i → ∃ t p, decideAction (env.resp (0 + j)) = .act t p false := by
    simpa using hc
  have h := agentLoop_unroll env i 0 m hc0 (by omega)
  obtain ⟨u, hu⟩ : ∃ u, m - i = u + 1 := ⟨m - i - 1, by omega⟩
  have htail : agentLoop env (m - i) (0 + i) = (.invalidOut, []) := by
    rw [hu]
    unfold agentLoop
    rw [show (0 + i) = i by omega, hinv]
  unfold runAgent
  rw [h, htail]
  simp

/-- C7 witness: a run whose second decision parses without a `tool` field
stops through the invalid branch with exactly the first iteration's record. -/
theorem runAgent_missing_tool_terminal_witness :
    (∀ j, j < 1 → ∃ t p, decideAction (envMissingTool.resp j) = .act t p false) ∧
    1 < 20 ∧
    decideAction (envMissingTool.resp 1) = .invalid ∧
    runAgent envMissingTool 20 = (.invalidOut, (List.range 1).map fun j => stepRec envMissingTool j) := by
  refine ⟨?_, by omega, by decide, ?_⟩
  · intro j hj
    have hj0 : j = 0 := by omega
    subst hj0
    exact ⟨("detect_scenes").data, [], rfl⟩
  · exact runAgent_missing_tool_terminal envMissingTool 20 1
      (fun j hj => by
        have hj0 : j = 0 := by omega
        subst hj0
        exact ⟨("detect_scenes").data, [], rfl⟩)
      (by omega) (by decide)

/-- C7 counterexample: when every model response is unparsable, the run
takes the Done branch on its very first decision (the `_decide_action`
fallback carries `done = True`), refuting "transitions to the Exhausted
outcome … does not reach the Done (success) outcome from an unparsable
decision". -/
theorem runAgent_unparsable_reaches_done :
    runAgent envUnparsable 20 = (.doneOut, []) := by decide

/-- C8: a tool invocation that raises during the Executing step is recorded
in the history as a failure entry for that iteration (`success = False`,
the error text, iteration number `i + 1`), and the loop continues with the
next Deciding step — if the next decision is again an executable action and
budget remains, the history also gains an entry for it; a single tool
failure never terminates the run. -/
theorem runAgent_tool_failure_recorded_continues (env : AgentEnv) (m i : ℕ)
    (t p e : List Char)
    (hc : ∀ j, j ≤ i → ∃ t' p', decideAction (env.resp j) = .act t' p' false)
    (ht : decideAction (env.resp i) = .act t p false)
    (he : env.exec i = .error e)
    (him : i < m) :
    (runAgent env m).2.get? i = some ⟨i + 1, t, p, false, e⟩ ∧
    (∀ t' p', i + 1 < m → decideAction (env.resp (i + 1)) = .act t' p' false →
      ∃ r, (runAgent env m).2.get? (i + 1) = some r ∧ r.iteration = i + 2) := by
  have hc0 : ∀ j, j < i + 1 → ∃ t' p', decideAction (env.resp (0 + j)) = .act t' p' false := by
    intro j hj
    simpa using hc j (by omega)
  have h := agentLoop_unroll env (i + 1) 0 m hc0 (by omega)
  have hrec : stepRec env i = ActionRecord.mk (i + 1) t p false e := by
    unfold stepRec
    rw [ht]
    unfold execRecord
    rw [he]
  constructor
  · unfold runAgent
    rw [h]
    rw [List.get?_append (by simp)]
    rw [List.get?_map, List.get?_range (by omega)]
    simp [hrec]
  · intro t' p' hlt ht'
    have hc1 : ∀ j, j < i + 2 → ∃ a b, decideAction (env.resp (0 + j)) = .act a b false := by
      intro j hj
      rcases Nat.lt_or_ge j (i + 1) with hj1 | hj1
      · exact hc0 j hj1
      · have hj2 : j = i + 1 := by omega
        subst hj2
        exact ⟨t', p', by simpa using ht'⟩
    have h2 := agentLoop_unroll env (i + 2) 0 m hc1 (by omega)
    refine ⟨stepRec env (i + 1), ?_, ?_⟩
    · unfold runAgent
      rw [h2]
      rw [List.get?_append (by simp)]
      rw [List.get?_map, List.get?_range (by omega)]
      simp
    · unfold stepRec
      rw [ht']
      unfold execRecord
      cases env.exec (i + 1) <;> rfl

/-- C8 witness: the first tool call raises (`boom`), its failure is
recorded at iteration 1, and the run continues into iteration 2. -/
theorem runAgent_tool_failure_recorded_continues_witness :
    (∀ j, j ≤ 0 → ∃ t' p', decideAction (envToolFailure.resp j) = .act t' p' false) ∧
    decideAction (envToolFailure.resp 0) = .act (("analyze_scene").data) [] false ∧
    envToolFailure.exec 0 = .error (("boom").data) ∧
    0 < 20 ∧
    ((runAgent envToolFailure 20).2.get? 0 =
        some ⟨0 + 1, ("analyze_scene").data, [], false, ("boom").data⟩ ∧
      (∀ t' p', 0 + 1 < 20 → decideAction (envToolFailure.resp (0 + 1)) = .act t' p' false →
        ∃ r, (runAgent envToolFailure 20).2.get? (0 + 1) = some r ∧ r.iteration = 0 + 2)) := by
  refine ⟨?_, by decide, rfl, by omega, ?_⟩
  · intro j hj
    exact ⟨("analyze_scene").data, [], rfl⟩
  · exact runAgent_tool_failure_recorded_continues envToolFailure 20 0
      (("analyze_scene").data) [] (("boom").data)
      (fun j hj => ⟨("analyze_scene").data, [], rfl⟩) (by decide) rfl (by omega)

/-- C10: a parsed decision carrying `done = true` makes the loop return the
accumulated history immediately and unchanged through the Done branch: the
named tool is not invoked (the returned value does not depend on
`env.exec i` at all) and no `ActionRecord` for the terminal decision is
appended — the history is exactly the records of the earlier iterations. -/
theorem runAgent_done_returns_history_unchanged (env : AgentEnv) (m i : ℕ)
    (t p : List Char)
    (hc : ∀ j, j < i → ∃ t' p', decideAction (env.resp j) = .act t' p' false)
    (him : i < m)
    (hdone : decideAction (env.resp i) = .act t p true) :
    runAgent env m = (.doneOut, (List.range i).map fun j => stepRec env j) := by
  have hc0 : ∀ j, j < i → ∃ t' p', decideAction (env.resp (0 + j)) = .act t' p' false := by
    simpa using hc
  have h := agentLoop_unroll env i 0 m hc0 (by omega)
  obtain ⟨u, hu⟩ : ∃ u, m - i = u + 1 := ⟨m - i - 1, by omega⟩
  have htail : agentLoop env (m - i) (0 + i) = (.doneOut, []) := by
    rw [hu]
    unfold agentLoop
    rw [show (0 + i) = i by omega, hdone]
  unfold runAgent
  rw [h, htail]
  simp

/-- C10 witness: the second decision carries `done = true`; the run returns
exactly the first iteration's record and the Done outcome. -/
theorem runAgent_done_returns_history_unchanged_witness :
    (∀ j, j < 1 → ∃ t' p', decideAction (envDoneSecond.resp j) = .act t' p' false) ∧
    1 < 20 ∧
    decideAction (envDoneSecond.resp 1) = .act (("extract_clip").data) [] true ∧
    runAgent envDoneSecond 20 = (.doneOut, (List.range 1).map fun j => stepRec envDoneSecond j) := by
  refine ⟨?_, by omega, by decide, ?_⟩
  · intro j hj
    have hj0 : j = 0 := by omega
    subst hj0
    exact ⟨("detect_scenes").data, [], rfl⟩
  · exact runAgent_done_returns_history_unchanged envDoneSecond 20 1 (("extract_clip").data) []
      (fun j hj => by
        have hj0 : j = 0 := by omega
        subst hj0
        exact ⟨("detect_scenes").data, [], rfl⟩)
      (by omega) (by decide)

theorem mem_insortND (x a : ℚ) : ∀ l : List ℚ, a ∈ insortND x l ↔ a = x ∨ a ∈ l := by
  intro l
  induction l with
  | nil => simp [insortND]
  | cons y ys ih =>
    unfold insortND
    by_cases h1 : x < y
    · rw [if_pos h1]; simp
    · rw [if_neg h1]
      by_cases h2 : x = y
      · rw [if_pos h2]; subst h2; simp
      · rw [if_neg h2]; simp [ih]; tauto

theorem pairwise_insortND (x : ℚ) :
    ∀ l : List ℚ, l.Pairwise (· < ·) → (insortND x l).Pairwise (· < ·) := by
  intro l
  induction l with
  | nil => intro _; simp [insortND]
  | cons y ys ih =>
    intro hp
    rcases List.pairwise_cons.mp hp with ⟨hy, hys⟩
    unfold insortND
    by_cases h1 : x < y
    · rw [if_pos h1]
      refine List.pairwise_cons.mpr ⟨?_, hp⟩
      intro z hz
      rcases List.mem_cons.mp hz with hz | hz
      · subst hz; exact h1
      · exact lt_trans h1 (hy z hz)
    · rw [if_neg h1]
      by_cases h2 : x = y
      · rw [if_pos h2]; exact hp
      · rw [if_neg h2]
        have hyx : y < x := lt_of_le_of_ne (not_lt.mp h1) fun h => h2 h.symm
        refine List.pairwise_cons.mpr ⟨?_, ih hys⟩
        intro z hz
        rcases (mem_insortND x z ys).mp hz with hz | hz
        · subst hz; exact hyx
        · exact hy z hz

theorem sortedSet_pairwise (ts : List ℚ) : (sortedSet ts).Pairwise (· < ·) := by
  induction ts with
  | nil => simp [sortedSet]
  | cons t ts ih => exact pairwise_insortND t _ ih

theorem mem_sortedSet : ∀ (ts : List ℚ) (a : ℚ), a ∈ sortedSet ts → a ∈ ts
  | [], a, h => by simp [sortedSet] at h
  | q :: qs, a, h => by
    have h' : a ∈ insortND q (sortedSet qs) := h
    rcases (mem_insortND q a (sortedSet qs)).mp h' with h2 | h2
    · subst h2; exact List.mem_cons_self _ _
    · exact List.mem_cons_of_mem q (mem_sortedSet qs a h2)

theorem sorted_nonneg_zero_head :
    ∀ l : List ℚ, l.Pairwise (· < ·) → (∀ x ∈ l, 0 ≤ x) → 0 ∈ l → l.head? = some 0
  | [], _, _, h0 => by simp at h0
  | h1 :: rest, hp, hm, h0 => by
    rcases List.mem_cons.mp h0 with h | h
    · rw [← h]; rfl
    · have hlt := (List.pairwise_cons.mp hp).1 0 h
      have hnn := hm h1 (List.mem_cons_self _ _)
      exact absurd hlt (not_lt.mpr hnn)

theorem boundaryList_pairwise {ts : List ℚ} {d : ℚ} {max_scenes : ℕ}
    (hd : 0 ≤ d) (hts : ∀ t ∈ ts, 0 ≤ t ∧ t ≤ d) :
    (boundaryList ts d max_scenes).Pairwise (· < ·) := by
  unfold boundaryList
  set t1 := (sortedSet ts).take max_scenes with ht1
  have ht1p : t1.Pairwise (· < ·) :=
    List.Pairwise.sublist (List.take_sublist _ _) (sortedSet_pairwise ts)
  have ht1m : ∀ x ∈ t1, 0 ≤ x ∧ x ≤ d := fun x hx =>
    hts x (mem_sortedSet ts x (List.mem_of_mem_take hx))
  set t2 := if t1.head? = some 0 then t1 else 0 :: t1 with ht2
  have ht2p : t2.Pairwise (· < ·) := by
    rw [ht2]
    by_cases hh : t1.head? = some 0
    · rw [if_pos hh]; exact ht1p
    · rw [if_neg hh]
      refine List.pairwise_cons.mpr ⟨?_, ht1p⟩
      intro x hx
      rcases lt_or_eq_of_le (ht1m x hx).1 with h | h
      · exact h
      · exact absurd
          (sorted_nonneg_zero_head t1 ht1p (fun y hy => (ht1m y hy).1) (h.symm ▸ hx)) hh
  have ht2m : ∀ x ∈ t2, 0 ≤ x ∧ x ≤ d := by
    rw [ht2]
    by_cases hh : t1.head? = some 0
    · rw [if_pos hh]; exact ht1m
    · rw [if_neg hh]
      intro x hx
      rcases List.mem_cons.mp hx with hx | hx
      · subst hx; exact ⟨le_refl 0, hd⟩
      · exact ht1m x hx
  by_cases hdm : d ∈ t2
  · rw [if_pos hdm]; exact ht2p
  · rw [if_neg hdm]
    rw [List.pairwise_append]
    refine ⟨ht2p, by simp, ?_⟩
    intro x hx y hy
    rw [List.mem_singleton.mp hy]
    rcases lt_or_eq_of_le (ht2m x hx).2 with h | h
    · exact h
    · exact absurd (h ▸ hx) hdm

theorem consecPairs_fst_mem : ∀ (l : List ℚ) (p : ℚ × ℚ), p ∈ consecPairs l → p.1 ∈ l
  | [], p, h => by simp [consecPairs] at h
  | [_], p, h => by simp [consecPairs] at h
  | a :: b :: rest, p, h => by
    unfold consecPairs at h
    rcases List.mem_cons.mp h with h | h
    · subst h; exact List.mem_cons_self _ _
    · exact List.mem_cons_of_mem a (consecPairs_fst_mem (b :: rest) p h)

theorem consecPairs_pairwise_fst :
    ∀ l : List ℚ, l.Pairwise (· < ·) →
      (consecPairs l).Pairwise (fun p q : ℚ × ℚ => p.1 < q.1)
  | [], _ => by simp [consecPairs]
  | [_], _ => by simp [consecPairs]
  | a :: b :: rest, hp => by
    rcases List.pairwise_cons.mp hp with ⟨ha, hrest⟩
    unfold consecPairs
    refine List.pairwise_cons.mpr ⟨?_, consecPairs_pairwise_fst (b :: rest) hrest⟩
    intro q hq
    exact ha q.1 (consecPairs_fst_mem (b :: rest) q hq)

theorem scenesFrom_cons (min_dur max_dur : ℚ) (k : ℕ) (p : ℚ × ℚ) (ps : List (ℚ × ℚ)) :
    scenesFrom min_dur max_dur k (p :: ps) =
      if scenePass min_dur max_dur p = true then
        ⟨k, p.1, p.2, p.2 - p.1, (p.1 + p.2) / 2⟩ :: scenesFrom min_dur max_dur (k + 1) ps
      else scenesFrom min_dur max_dur k ps := rfl

theorem foldl_appendScene (min_dur max_dur : ℚ) :
    ∀ (ps : List (ℚ × ℚ)) (acc : List Scene),
      ps.foldl (appendScene min_dur max_dur) acc =
        acc ++ scenesFrom min_dur max_dur acc.length ps := by
  intro ps
  induction ps with
  | nil => intro acc; simp [scenesFrom]
  | cons p ps ih =>
    intro acc
    rw [List.foldl_cons, ih, scenesFrom_cons]
    by_cases hp : scenePass min_dur max_dur p = true
    · have ha : appendScene min_dur max_dur acc p =
          acc ++ [⟨acc.length, p.1, p.2, p.2 - p.1, (p.1 + p.2) / 2⟩] := by
        unfold appendScene
        rw [if_pos hp]
      rw [ha, if_pos hp]
      simp [List.append_assoc]
    · have ha : appendScene min_dur max_dur acc p = acc := by
        unfold appendScene
        rw [if_neg hp]
      rw [ha, if_neg hp]

theorem primaryScenes_eq_scenesFrom (ts : List ℚ) (d min_dur max_dur : ℚ) (max_scenes : ℕ) :
    primaryScenes ts d min_dur max_dur max_scenes =
      scenesFrom min_dur max_dur 0 (consecPairs (boundaryList ts d max_scenes)) := by
  unfold primaryScenes
  rw [foldl_appendScene]
  simp

theorem scenesFrom_map_index (min_dur max_dur : ℚ) :
    ∀ (ps : List (ℚ × ℚ)) (k : ℕ),
      (scenesFrom min_dur max_dur k ps).map Scene.index =
        List.range' k (scenesFrom min_dur max_dur k ps).length := by
  intro ps
  induction ps with
  | nil => intro k; simp [scenesFrom]
  | cons p ps ih =>
    intro k
    unfold scenesFrom
    by_cases hp : scenePass min_dur max_dur p = true
    · rw [if_pos hp]
      simp only [List.map_cons, List.length_cons, List.range'_succ]
      exact congrArg (k :: ·) (ih (k + 1))
    · rw [if_neg hp]
      exact ih k

theorem scenesFrom_mem (min_dur max_dur : ℚ) :
    ∀ (ps : List (ℚ × ℚ)) (k : ℕ) (s : Scene), s ∈ scenesFrom min_dur max_dur k ps →
      ∃ p, p ∈ ps ∧ s.start = p.1 ∧ s.duration = p.2 - p.1 ∧ scenePass min_dur max_dur p = true := by
  intro ps
  induction ps with
  | nil => intro k s h; simp [scenesFrom] at h
  | cons p ps ih =>
    intro k s h
    unfold scenesFrom at h
    by_cases hp : scenePass min_dur max_dur p = true
    · rw [if_pos hp] at h
      rcases List.mem_cons.mp h with h | h
      · subst h
        exact ⟨p, List.mem_cons_self _ _, rfl, rfl, hp⟩
      · rcases ih (k + 1) s h with ⟨q, hq, h1, h2, h3⟩
        exact ⟨q, List.mem_cons_of_mem p hq, h1, h2, h3⟩
    · rw [if_neg hp] at h
      rcases ih k s h with ⟨q, hq, h1, h2, h3⟩
      exact ⟨q, List.mem_cons_of_mem p hq, h1, h2, h3⟩

theorem scenesFrom_pairwise_start (min_dur max_dur : ℚ) :
    ∀ (ps : List (ℚ × ℚ)) (k : ℕ), ps.Pairwise (fun p q : ℚ × ℚ => p.1 < q.1) →
      (scenesFrom min_dur max_dur k ps).Pairwise (fun a b => a.start < b.start) := by
  intro ps
  induction ps with
  | nil => intro k _; simp [scenesFrom]
  | cons p ps ih =>
    intro k hp
    rcases List.pairwise_cons.mp hp with ⟨hhead, htail⟩
    unfold scenesFrom
    by_cases hpass : scenePass min_dur max_dur p = true
    · rw [if_pos hpass]
      refine List.pairwise_cons.mpr ⟨?_, ih (k + 1) htail⟩
      intro s hs
      rcases scenesFrom_mem min_dur max_dur ps (k + 1) s hs with ⟨q, hq, h1, _, _⟩
      show p.1 < s.start
      rw [h1]
      exact hhead q hq
    · rw [if_neg hpass]
      exact ih k htail

theorem scenePass_bounds {min_dur max_dur : ℚ} {p : ℚ × ℚ}
    (h : scenePass min_dur max_dur p = true) :
    min_dur ≤ p.2 - p.1 ∧ p.2 - p.1 ≤ max_dur := by
  unfold scenePass at h
  simp only [Bool.and_eq_true] at h
  exact ⟨of_decide_eq_true h.1, of_decide_eq_true h.2⟩

theorem filterMap_if_eq_filter_map (keep : ℕ → Bool) (g : ℕ → Scene) :
    ∀ l : List ℕ,
      (l.filterMap fun i => if keep i then some (g i) else none) = (l.filter keep).map g := by
  intro l
  induction l with
  | nil => simp
  | cons i l ih =>
    rw [List.filterMap_cons, List.filter_cons]
    by_cases hk : keep i = true
    · simp [hk, ih]
    · simp [hk, ih]

theorem filter_range_initial (keep : ℕ → Bool)
    (hmono : ∀ i j, j ≤ i → keep i = true → keep j = true) :
    ∀ n : ℕ, (List.range n).filter keep = List.range ((List.range n).filter keep).length := by
  intro n
  induction n with
  | zero => simp
  | succ m ih =>
    rw [List.range_succ, List.filter_append]
    by_cases hk : keep m = true
    · have hall : (List.range m).filter keep = List.range m := by
        rw [List.filter_eq_self]
        intro j hj
        exact hmono m j (le_of_lt (List.mem_range.mp hj)) hk
      rw [hall]
      simp [hk, List.range_succ]
    · simp only [List.filter_cons, hk]
      simp only [Bool.false_eq_true, if_neg]
      simpa using ih

theorem chunkDur_pos {d : ℚ} (hd : 0 < d) : 0 < chunkDur d := by
  unfold chunkDur
  apply lt_min
  · norm_num
  · positivity

theorem chunk_sub (c d : ℚ) (i : ℕ) :
    chunkEnd c d i - chunkStart c i = min c (d - (i : ℚ) * c) := by
  unfold chunkEnd chunkStart
  rcases le_total (((i : ℚ) + 1) * c) d with h | h
  · rw [min_eq_left h, min_eq_left (by nlinarith)]
    ring
  · rw [min_eq_right h, min_eq_right (by nlinarith)]

theorem keepChunk_mono (c d : ℚ) (hc : 0 ≤ c) :
    ∀ i j : ℕ, j ≤ i → keepChunk c d i = true → keepChunk c d j = true := by
  intro i j hji hk
  unfold keepChunk at hk ⊢
  have hi := of_decide_eq_true hk
  apply decide_eq_true
  rw [chunk_sub] at hi ⊢
  have hcast : (j : ℚ) ≤ (i : ℚ) := Nat.cast_le.mpr hji
  have hmono : d - (i : ℚ) * c ≤ d - (j : ℚ) * c := by nlinarith
  exact le_trans hi (min_le_min (le_refl c) hmono)

theorem fallbackScenes_eq_filter (d : ℚ) :
    fallbackScenes d =
      ((List.range (chunkCount d)).filter (keepChunk (chunkDur d) d)).map
        (chunkScene (chunkDur d) d) := by
  unfold fallbackScenes
  exact filterMap_if_eq_filter_map _ _ _

theorem fallbackScenes_eq_rangeK (d : ℚ) (hd : 0 < d) :
    ∃ K, fallbackScenes d = (List.range K).map (chunkScene (chunkDur d) d) ∧
      ∀ i, i < K → keepChunk (chunkDur d) d i = true := by
  have hc : 0 ≤ chunkDur d := le_of_lt (chunkDur_pos hd)
  have hfr := filter_range_initial (keepChunk (chunkDur d) d)
    (keepChunk_mono (chunkDur d) d hc) (chunkCount d)
  refine ⟨((List.range (chunkCount d)).filter (keepChunk (chunkDur d) d)).length, ?_, ?_⟩
  · rw [fallbackScenes_eq_filter]
    exact congrArg (List.map (chunkScene (chunkDur d) d)) hfr
  · intro i hi
    have hmem : i ∈ (List.range (chunkCount d)).filter (keepChunk (chunkDur d) d) := by
      rw [hfr]
      exact List.mem_range.mpr hi
    exact (List.mem_filter.mp hmem).2

theorem detect_scenes_eq_fallback {ts : List ℚ} {d min_dur max_dur : ℚ} {max_scenes : ℕ}
    (h1 : primaryScenes ts d min_dur max_dur max_scenes = []) (h2 : 0 < d) :
    detect_scenes ts d min_dur max_dur max_scenes = fallbackScenes d := by
  show (if primaryScenes ts d min_dur max_dur max_scenes = [] ∧ 0 < d then fallbackScenes d
    else primaryScenes ts d min_dur max_dur max_scenes) = fallbackScenes d
  rw [if_pos ⟨h1, h2⟩]

theorem detect_scenes_eq_primary {ts : List ℚ} {d min_dur max_dur : ℚ} {max_scenes : ℕ}
    (h : ¬(primaryScenes ts d min_dur max_dur max_scenes = [] ∧ 0 < d)) :
    detect_scenes ts d min_dur max_dur max_scenes =
      primaryScenes ts d min_dur max_dur max_scenes := by
  show (if primaryScenes ts d min_dur max_dur max_scenes = [] ∧ 0 < d then fallbackScenes d
    else primaryScenes ts d min_dur max_dur max_scenes) = _
  rw [if_neg h]

/-- C1 (amended): for keyframe timestamps lying within `[0, duration]` and a
nonnegative duration, every run of `detect_scenes` emits scenes with
contiguous zero-based indices (`0, 1, 2, …`) in strictly ascending `start`
order — on both the keyframe path and the equal-chunk fallback path; every
emitted scene's duration satisfies the configured bounds
`min_duration ≤ duration ≤ max_duration` when it comes from the keyframe
path, or `1 ≤ duration ≤ 15` when it comes from the fallback path.  The
original claim — that the configured bounds hold on **both** paths — is
refuted by `detect_scenes_fallback_bounds_counterexample`: the fallback only
enforces its own `1s` floor and `min(15, d/5)` chunk size. -/
theorem detect_scenes_index_order_bounds (ts : List ℚ) (d min_dur max_dur : ℚ)
    (max_scenes : ℕ) (hd : 0 ≤ d) (hts : ∀ t ∈ ts, 0 ≤ t ∧ t ≤ d) :
    ((detect_scenes ts d min_dur max_dur max_scenes).map Scene.index =
      List.range (detect_scenes ts d min_dur max_dur max_scenes).length) ∧
    (detect_scenes ts d min_dur max_dur max_scenes).Pairwise (fun a b => a.start < b.start) ∧
    (∀ s ∈ detect_scenes ts d min_dur max_dur max_scenes,
      (min_dur ≤ s.duration ∧ s.duration ≤ max_dur) ∨ (1 ≤ s.duration ∧ s.duration ≤ 15)) := by
  by_cases hb : primaryScenes ts d min_dur max_dur max_scenes = [] ∧ 0 < d
  · rw [detect_scenes_eq_fallback hb.1 hb.2]
    obtain ⟨K, hK, hkeep⟩ := fallbackScenes_eq_rangeK d hb.2
    rw [hK]
    refine ⟨?_, ?_, ?_⟩
    · rw [List.map_map]
      have hcomp : (Scene.index ∘ chunkScene (chunkDur d) d) = id := by
        funext i
        rfl
      rw [hcomp, List.map_id, List.length_map, List.length_range]
    · rw [List.pairwise_map]
      refine List.Pairwise.imp ?_ (List.pairwise_lt_range K)
      intro i j hij
      show chunkStart (chunkDur d) i < chunkStart (chunkDur d) j
      unfold chunkStart
      exact mul_lt_mul_of_pos_right (by exact_mod_cast hij) (chunkDur_pos hb.2)
    · intro s hs
      rcases List.mem_map.mp hs with ⟨i, hi, rfl⟩
      right
      have hkeepi := hkeep i (List.mem_range.mp hi)
      have h1 : (1 : ℚ) ≤ chunkEnd (chunkDur d) d i - chunkStart (chunkDur d) i := by
        have := of_decide_eq_true hkeepi
        exact this
      refine ⟨h1, ?_⟩
      show chunkEnd (chunkDur d) d i - chunkStart (chunkDur d) i ≤ 15
      rw [chunk_sub]
      refine le_trans (min_le_left _ _) ?_
      unfold chunkDur
      exact min_le_left _ _
  · rw [detect_scenes_eq_primary hb]
    rw [primaryScenes_eq_scenesFrom]
    have hbp : (boundaryList ts d max_scenes).Pairwise (· < ·) := boundaryList_pairwise hd hts
    have hpp := consecPairs_pairwise_fst _ hbp
    refine ⟨?_, scenesFrom_pairwise_start _ _ _ 0 hpp, ?_⟩
    · rw [scenesFrom_map_index]
      exact (List.range_eq_range' _).symm
    · intro s hs
      rcases scenesFrom_mem _ _ _ 0 s hs with ⟨p, _, _, hdur, hpass⟩
      left
      rw [hdur]
      exact scenePass_bounds hpass

/-- C1 witness: keyframes `[10, 20]` in a 120-second video with the default
bounds `[2, 60]`: the keyframe path emits two scenes and the theorem
instantiates. -/
theorem detect_scenes_index_order_bounds_witness :
    (0 : ℚ) ≤ 120 ∧ (∀ t ∈ ([10, 20] : List ℚ), 0 ≤ t ∧ t ≤ 120) ∧
    (((detect_scenes [10, 20] 120 2 60 100).map Scene.index =
        List.range (detect_scenes [10, 20] 120 2 60 100).length) ∧
      (detect_scenes [10, 20] 120 2 60 100).Pairwise (fun a b => a.start < b.start) ∧
      (∀ s ∈ detect_scenes [10, 20] 120 2 60 100,
        (2 ≤ s.duration ∧ s.duration ≤ 60) ∨ (1 ≤ s.duration ∧ s.duration ≤ 15))) :=
  ⟨by norm_num, by decide, detect_scenes_index_order_bounds [10, 20] 120 2 60 100
    (by norm_num) (by decide)⟩

/-- C1 counterexample: keyframes at every second of a 7-second video with the
default bounds `[2, 60]`: every keyframe interval (1s) is filtered out, the
fallback emits five chunks of `7/5 = 1.4` seconds, and `1.4 < 2` violates the
claimed `min ≤ duration` on the fallback path. -/
theorem detect_scenes_fallback_bounds_counterexample :
    ¬ ∀ s ∈ detect_scenes [1, 2, 3, 4, 5, 6] 7 2 60 100,
        2 ≤ s.duration ∧ s.duration ≤ 60 := by decide

theorem chunkDur_ge_one {d : ℚ} (hd : 5 ≤ d) : 1 ≤ chunkDur d := by
  unfold chunkDur
  apply le_min
  · norm_num
  · rw [le_div_iff (by norm_num : (0 : ℚ) < 5)]
    linarith

theorem chunkCount_spec {d : ℚ} (hd : 5 ≤ d) :
    3 ≤ chunkCount d ∧ (chunkCount d : ℚ) * chunkDur d ≤ d ∧
      (d ≤ 75 → (chunkCount d : ℚ) * chunkDur d = d) := by
  have hd0 : (0 : ℚ) < d := by linarith
  rcases le_or_lt d 75 with h75 | h75
  · have hc : chunkDur d = d / 5 := by
      unfold chunkDur
      apply min_eq_right
      rw [div_le_iff (by norm_num : (0 : ℚ) < 5)]
      linarith
    have hq : d / chunkDur d = 5 := by
      rw [hc, div_div_eq_mul_div, mul_comm, mul_div_assoc, div_self (ne_of_gt hd0), mul_one]
    have hn : chunkCount d = 5 := by
      unfold chunkCount
      rw [hq]
      decide
    have heq : (chunkCount d : ℚ) * chunkDur d = d := by
      rw [hn, hc]
      push_cast
      rw [mul_comm]
      exact div_mul_cancel₀ d (by norm_num)
    exact ⟨by omega, le_of_eq heq, fun _ => heq⟩
  · have hc : chunkDur d = 15 := by
      unfold chunkDur
      apply min_eq_left
      rw [le_div_iff (by norm_num : (0 : ℚ) < 5)]
      linarith
    have h5 : (5 : ℤ) ≤ ⌊d / chunkDur d⌋ := by
      apply Int.le_floor.mpr
      rw [hc]
      push_cast
      rw [le_div_iff (by norm_num : (0 : ℚ) < 15)]
      linarith
    have hn : chunkCount d = ⌊d / chunkDur d⌋.toNat := by
      unfold chunkCount
      omega
    refine ⟨by omega, ?_, fun h => absurd h (not_le.mpr h75)⟩
    rw [hn, hc] at *
    have hnn : (0 : ℤ) ≤ ⌊d / 15⌋ := by omega
    have hcast : ((⌊d / 15⌋.toNat : ℕ) : ℚ) = ((⌊d / 15⌋ : ℤ) : ℚ) := by
      exact_mod_cast congrArg (Int.cast : ℤ → ℚ) (Int.toNat_of_nonneg hnn)
    rw [hcast]
    have hfl : ((⌊d / 15⌋ : ℤ) : ℚ) ≤ d / 15 := Int.floor_le _
    calc ((⌊d / 15⌋ : ℤ) : ℚ) * 15 ≤ (d / 15) * 15 :=
        mul_le_mul_of_nonneg_right hfl (by norm_num)
      _ = d := div_mul_cancel₀ d (by norm_num)

theorem chunk_kept_all {d : ℚ} (hd : 5 ≤ d) :
    ∀ i, i < chunkCount d →
      keepChunk (chunkDur d) d i = true ∧
        chunkEnd (chunkDur d) d i = ((i : ℚ) + 1) * chunkDur d := by
  intro i hi
  have hc1 := chunkDur_ge_one hd
  have hle : ((i : ℚ) + 1) * chunkDur d ≤ d := by
    have h1 : ((i : ℚ) + 1) ≤ (chunkCount d : ℚ) := by exact_mod_cast Nat.succ_le_of_lt hi
    calc ((i : ℚ) + 1) * chunkDur d ≤ (chunkCount d : ℚ) * chunkDur d :=
        mul_le_mul_of_nonneg_right h1 (by linarith)
      _ ≤ d := (chunkCount_spec hd).2.1
  have hend : chunkEnd (chunkDur d) d i = ((i : ℚ) + 1) * chunkDur d := by
    unfold chunkEnd
    exact min_eq_left hle
  refine ⟨?_, hend⟩
  unfold keepChunk
  apply decide_eq_true
  rw [hend]
  unfold chunkStart
  nlinarith

theorem fallbackScenes_all_kept {d : ℚ} (hd : 5 ≤ d) :
    fallbackScenes d = (List.range (chunkCount d)).map (chunkScene (chunkDur d) d) := by
  rw [fallbackScenes_eq_filter]
  have : (List.range (chunkCount d)).filter (keepChunk (chunkDur d) d) =
      List.range (chunkCount d) := by
    rw [List.filter_eq_self]
    intro i hi
    exact (chunk_kept_all hd i (List.mem_range.mp hi)).1
  rw [this]

/-- C2 (amended): when the keyframe-filtered segmentation yields zero scenes
and the video duration is at least 5 seconds, the fallback emits exactly
`num_chunks = max(3, ⌊d / c⌋) ≥ 3` chunks of duration exactly
`c = min(15, d/5) ∈ [1, 15]`, with chunk `i` spanning `[i·c, (i+1)·c]`: the
first chunk starts at `0`, consecutive chunks are adjacent, and the last
chunk ends at `num_chunks · c ≤ d`, which equals `d` whenever `d ≤ 75` (for
`d > 75` the trailing `d - 15·⌊d/15⌋ < 15` seconds are not covered by any
chunk).  The original claim fails twice: for `0 < d < 5` every chunk is
shorter than one second and the fallback emits nothing at all
(`detect_scenes_short_video_no_chunks`), and for `d > 75` not divisible by
15 the chunks do not reach `d`. -/
theorem detect_scenes_fallback_partition (ts : List ℚ) (d min_dur max_dur : ℚ)
    (max_scenes : ℕ)
    (hprim : primaryScenes ts d min_dur max_dur max_scenes = [])
    (hd : 5 ≤ d) :
    (detect_scenes ts d min_dur max_dur max_scenes).length = chunkCount d ∧
    3 ≤ chunkCount d ∧
    1 ≤ chunkDur d ∧ chunkDur d ≤ 15 ∧
    (∀ s ∈ detect_scenes ts d min_dur max_dur max_scenes,
      s.duration = chunkDur d ∧ s.start = (s.index : ℚ) * chunkDur d ∧
        s.end_ = ((s.index : ℚ) + 1) * chunkDur d) ∧
    ((detect_scenes ts d min_dur max_dur max_scenes).map Scene.index =
      List.range (chunkCount d)) ∧
    (((detect_scenes ts d min_dur max_dur max_scenes).map Scene.start).head? = some 0) ∧
    (detect_scenes ts d min_dur max_dur max_scenes).Chain' (fun a b => a.end_ = b.start) ∧
    (chunkCount d : ℚ) * chunkDur d ≤ d ∧
    (d ≤ 75 → (chunkCount d : ℚ) * chunkDur d = d) := by
  have hd0 : (0 : ℚ) < d := by linarith
  have hds : detect_scenes ts d min_dur max_dur max_scenes =
      (List.range (chunkCount d)).map (chunkScene (chunkDur d) d) := by
    rw [detect_scenes_eq_fallback hprim hd0]
    exact fallbackScenes_all_kept hd
  have hcs := chunkCount_spec hd
  have hn3 : 3 ≤ chunkCount d := hcs.1
  have hsval : ∀ i, i < chunkCount d →
      (chunkScene (chunkDur d) d i).duration = chunkDur d ∧
      (chunkScene (chunkDur d) d i).start = (i : ℚ) * chunkDur d ∧
      (chunkScene (chunkDur d) d i).end_ = ((i : ℚ) + 1) * chunkDur d := by
    intro i hi
    have hend := (chunk_kept_all hd i hi).2
    refine ⟨?_, rfl, ?_⟩
    · show chunkEnd (chunkDur d) d i - chunkStart (chunkDur d) i = chunkDur d
      rw [hend]
      unfold chunkStart
      ring
    · exact hend
  refine ⟨?_, hn3, chunkDur_ge_one hd, min_le_left _ _, ?_, ?_, ?_, ?_, hcs.2.1, hcs.2.2⟩
  · rw [hds, List.length_map, List.length_range]
  · intro s hs
    rw [hds] at hs
    rcases List.mem_map.mp hs with ⟨i, hi, rfl⟩
    have := hsval i (List.mem_range.mp hi)
    simpa using this
  · rw [hds, List.map_map]
    have hcomp : (Scene.index ∘ chunkScene (chunkDur d) d) = id := by
      funext i
      rfl
    rw [hcomp, List.map_id]
  · rw [hds]
    obtain ⟨m, hm⟩ : ∃ m, chunkCount d = m + 1 := ⟨chunkCount d - 1, by omega⟩
    rw [hm, List.range_succ_eq_map, List.map_cons, List.map_cons]
    show some ((chunkScene (chunkDur d) d 0).start) = some 0
    unfold chunkScene chunkStart
    norm_num
  · rw [hds]
    rw [List.chain'_map]
    obtain ⟨m, hm⟩ : ∃ m, chunkCount d = m + 1 := ⟨chunkCount d - 1, by omega⟩
    rw [hm]
    rw [List.chain'_range_succ]
    intro i hi
    show (chunkScene (chunkDur d) d i).end_ = (chunkScene (chunkDur d) d (i + 1)).start
    have hend := (chunk_kept_all hd i (by omega)).2
    show chunkEnd (chunkDur d) d i = chunkStart (chunkDur d) (i + 1)
    rw [hend]
    unfold chunkStart
    push_cast
    ring

/-- C2 witness: a 20-second video whose only keyframe interval (20s) is
filtered out by bounds `[25, 60]`: the fallback yields 5 chunks of 4 seconds
covering `[0, 20]`. -/
theorem detect_scenes_fallback_partition_witness :
    primaryScenes [] 20 25 60 100 = [] ∧ (5 : ℚ) ≤ 20 ∧
    ((detect_scenes [] 20 25 60 100).length = chunkCount 20 ∧
      3 ≤ chunkCount 20 ∧
      1 ≤ chunkDur 20 ∧ chunkDur 20 ≤ 15 ∧
      (∀ s ∈ detect_scenes [] 20 25 60 100,
        s.duration = chunkDur 20 ∧ s.start = (s.index : ℚ) * chunkDur 20 ∧
          s.end_ = ((s.index : ℚ) + 1) * chunkDur 20) ∧
      ((detect_scenes [] 20 25 60 100).map Scene.index = List.range (chunkCount 20)) ∧
      (((detect_scenes [] 20 25 60 100).map Scene.start).head? = some 0) ∧
      (detect_scenes [] 20 25 60 100).Chain' (fun a b => a.end_ = b.start) ∧
      (chunkCount 20 : ℚ) * chunkDur 20 ≤ 20 ∧
      ((20 : ℚ) ≤ 75 → (chunkCount 20 : ℚ) * chunkDur 20 = 20)) :=
  ⟨by decide, by norm_num, detect_scenes_fallback_partition [] 20 25 60 100 (by decide) (by norm_num)⟩

/-- C2 counterexample: a 4-second video with bounds `[5, 60]`: the keyframe
path filters everything out, `videoDuration > 0`, yet the fallback's chunks
are all `0.8 s < 1 s` and are discarded, so `detect_scenes` returns zero
scenes — refuting "the fallback path produces at least 3 chunks". -/
theorem detect_scenes_short_video_no_chunks :
    primaryScenes [] 4 5 60 100 = [] ∧ (0 : ℚ) < 4 ∧ detect_scenes [] 4 5 60 100 = [] := by
  refine ⟨by decide, by norm_num, by decide⟩
